import Mathlib

/-!
Verification of the `ctsm` scaffolding tool's core logic: the command-line
argument parser (`args.ts`), the string utilities (`util.ts`) and the
version-control identity lookup (`git.ts`).  Strings are modelled as
`List Char`; the JavaScript string/array operations used by the source
(`split`, `join`, `slice`, `trim`, `trimEnd`, `findIndex`, `replace`,
`toLowerCase`, `startsWith`) are embedded as structurally recursive
functions below.
-/

namespace Ctsm

/-- The characters of a string literal, for readable concrete inputs. -/
def chars (s : String) : List Char := s.data

/-- JavaScript whitespace (the `\s` class and `trim`) restricted to the
ASCII whitespace characters: space, tab, line feed, carriage return,
vertical tab, form feed. -/
def isWs (c : Char) : Bool :=
  c == ' ' || c == '\t' || c == '\n' || c == '\r' || c == '\x0b' || c == '\x0c'

/-- JS `s.split(sep)` for a single-character separator: always returns at
least one (possibly empty) segment. -/
def splitOnChar (sep : Char) : List Char → List (List Char)
  | [] => [[]]
  | c :: rest =>
    match splitOnChar sep rest with
    | [] => [[c]]
    | l :: ls => if c = sep then [] :: l :: ls else (c :: l) :: ls

/-- JS `parts.join(sep)` for a single-character separator. -/
def joinWith (sep : Char) : List (List Char) → List Char
  | [] => []
  | [l] => l
  | l :: ls => l ++ sep :: joinWith sep ls

/-- JS `s.trimEnd()`: remove trailing whitespace. -/
def trimEnd (s : List Char) : List Char :=
  (s.reverse.dropWhile isWs).reverse

/-- JS `s.trim()`: remove leading and trailing whitespace. -/
def trim (s : List Char) : List Char :=
  trimEnd (s.dropWhile isWs)

/-- JS `arr.findIndex(p)`, with `none` standing for the sentinel `-1`. -/
def findFirstIdx (p : List Char → Bool) : List (List Char) → Option Nat
  | [] => none
  | l :: ls => if p l then some 0 else (findFirstIdx p ls).map (· + 1)

/-! ## The argument parser (`args.ts`) -/

/-- A flag value is `string | boolean`, mirroring the TypeScript union
stored in the `Flags` map. -/
inductive FlagVal where
  | str : List Char → FlagVal
  | bool : Bool → FlagVal
deriving DecidableEq, Repr

/-- JS `Map.prototype.set`: replace the value in place if the key exists,
otherwise append the new entry. -/
def setFlag : List (List Char × FlagVal) → List Char → FlagVal → List (List Char × FlagVal)
  | [], k, v => [(k, v)]
  | (k', v') :: rest, k, v =>
    if k' = k then (k, v) :: rest else (k', v') :: setFlag rest k v

/-- JS `Map.prototype.get` on an association list. -/
def lookupFlag : List (List Char × FlagVal) → List Char → Option FlagVal
  | [], _ => none
  | (k', v') :: rest, k => if k' = k then some v' else lookupFlag rest k

/-- The parser state: the `Flags` map and the positional argument array. -/
structure ParseState where
  flags : List (List Char × FlagVal)
  args : List (List Char)
deriving DecidableEq, Repr

/-- The shared flag branch of `parse`: `const [key, value] = rest.split('=');
if (!key) continue; flags.set(key, value ?? true);` where `rest` is the
token with its dash prefix stripped. -/
def applyFlag (st : ParseState) (rest : List Char) : ParseState :=
  match splitOnChar '=' rest with
  | [] => st
  | key :: vals =>
    if key = [] then st
    else
      match vals with
      | [] => { st with flags := setFlag st.flags key (.bool true) }
      | v :: _ => { st with flags := setFlag st.flags key (.str v) }

/-- One iteration of the `for (const arg of argv)` loop in `parse`:
`if (arg.startsWith('--'))` go through the flag branch on `arg.slice(2)`,
`else if (arg.startsWith('-'))` on `arg.slice(1)`, else `args.push(arg)`. -/
def parseArg (st : ParseState) (arg : List Char) : ParseState :=
  if ['-', '-'].isPrefixOf arg then applyFlag st (arg.drop 2)
  else if ['-'].isPrefixOf arg then applyFlag st (arg.drop 1)
  else { st with args := st.args ++ [arg] }

/-- Function `parse(argv)` from `args.ts`, folding the loop body over the
tokens. -/
def parse (argv : List (List Char)) : ParseState :=
  argv.foldl parseArg ⟨[], []⟩

/-! ## `confirm` (`util.ts`) -/

/-- JS `s.toLowerCase()` on the ASCII range (the only case-bearing
characters the confirm check can meet are ASCII letters). -/
def toLowerStr (s : List Char) : List Char := s.map Char.toLower

/-- The decision core of `confirm(message, options)` from `util.ts`,
with the terminal read abstracted into the `answer` parameter:
`if (options.acceptDefault && answer === '') return true;
return answer.toLowerCase().startsWith('y');`. -/
def confirm (acceptDefault : Bool) (answer : List Char) : Bool :=
  if acceptDefault && answer.isEmpty then true
  else (toLowerStr answer).head? == some 'y'

/-! ## `getGitUser` (`git.ts`) -/

/-- JS `s.replace(pat, '')` for a non-empty literal pattern: delete the
first occurrence of `pat`, leave the string unchanged when absent. -/
def replaceFirst (pat : List Char) : List Char → List Char
  | [] => []
  | c :: rest =>
    if pat.isPrefixOf (c :: rest) then (c :: rest).drop pat.length
    else c :: replaceFirst pat rest

/-- The pure core of `getGitUser` from `git.ts`, with the text produced by
`git config --get-regexp user.` abstracted into the `text` parameter:
`text.trim().split('\n').map(line => { const [key, ...value] = line.split(' ');
return [key!.replace('user.', ''), value.join(' ')]; })`, the resulting
entry list standing for the object built by `Object.fromEntries`. -/
def getGitUser (text : List Char) : List (List Char × List Char) :=
  (splitOnChar '\n' (trim text)).map fun line =>
    match splitOnChar ' ' line with
    | [] => ([], [])
    | key :: value => (replaceFirst (chars "user.") key, joinWith ' ' value)

/-- JS `Map.prototype.get` over the identity entry list. -/
def lookupEntry : List (List Char × List Char) → List Char → Option (List Char)
  | [], _ => none
  | (k', v') :: rest, k => if k' = k then some v' else lookupEntry rest k

/-! ## `json` (`util.ts`) -/

/-- One field line of the serialized object: a tab, the quoted key, a
colon, a space and the decimal value. -/
def jsonField (k : List Char) (v : Nat) : List Char :=
  '\t' :: '"' :: (k ++ '"' :: ':' :: ' ' :: chars (Nat.repr v))

/-- Segments joined by a multi-character separator (JS `arr.join(sep)`). -/
def joinSep (sep : List Char) : List (List Char) → List Char
  | [] => []
  | [l] => l
  | l :: ls => l ++ sep ++ joinSep sep ls

/-- Modelled from the runtime behaviour the source relies on:
`json(value)` in `util.ts` is `JSON.stringify(value, null, '\t')`, here
restricted to flat objects with number fields, the shape exercised by the
repository's test `json({a: 1, b: 2})`.  `JSON.stringify` with a tab
indent prints `{}` for an empty object and otherwise an opening brace, one
tab-indented `"key": value` line per field separated by `",\n"`, and a
closing brace on its own line. -/
def json (fields : List (List Char × Nat)) : List Char :=
  match fields with
  | [] => chars "{}"
  | _ =>
    '{' :: '\n' :: (joinSep (chars ",\n") (fields.map fun p => jsonField p.1 p.2)
      ++ '\n' :: ['}'])

/-! ## `code` (dedent, `util.ts`) -/

/-- The window `allLines.slice(allLines.findIndex(line => line.trim() !== ''))`
from `code` in `util.ts`: drop everything before the first non-blank line;
when every line is blank, JS `findIndex` returns `-1` and `slice(-1)`
keeps only the last line. -/
def dedentLines (allLines : List (List Char)) : List (List Char) :=
  match findFirstIdx (fun l => !(l.all isWs)) allLines with
  | some i => allLines.drop i
  | none => allLines.drop (allLines.length - 1)

/-- The tail of `code` in `util.ts`: measure the leading-whitespace run
of the first remaining line (`lines[0]!.match(/^\s*/)?.[0]`), drop that
many characters from every remaining line
(`lines.map(line => line.slice(indent!.length))`), and join with
newlines. -/
def dedentJoin (lines : List (List Char)) : List Char :=
  joinWith '\n' (lines.map fun l => l.drop (((lines.headD []).takeWhile isWs).length))

/-- The dedent function `code` from `util.ts` on an already joined
template (`getTemplateStrings` turns a plain string argument into a
single-part template, so `strings.join('')` is the string itself):
trim the end, split into lines, drop leading blank lines, then strip the
first remaining line's indentation width from every remaining line. -/
def code (s : List Char) : List Char :=
  dedentJoin (dedentLines (splitOnChar '\n' (trimEnd s)))

/-! ## The generated manifest's build script (`index.ts`) -/

/-- The closed set of supported package managers, in the order of the
`['bun', 'npm', 'yarn', 'pnpm']` option list. -/
inductive PackageManager where
  | bun | npm | yarn | pnpm
deriving DecidableEq, Repr

/-- The literal command-line name of each package manager. -/
def PackageManager.name : PackageManager → List Char
  | .bun => chars "bun"
  | .npm => chars "npm"
  | .yarn => chars "yarn"
  | .pnpm => chars "pnpm"

/-- The manifest's `scripts.build` field:
`PACKAGE_MANAGER === 'npm' ? 'npx tsup' : `${PACKAGE_MANAGER} tsup``. -/
def buildScript (pm : PackageManager) : List Char :=
  if pm = .npm then chars "npx tsup" else pm.name ++ chars " tsup"

/-- A text block ends cleanly when it is empty or its last character is
not whitespace; this is exactly the condition under which `trimEnd` is
the identity. -/
def endsClean (l : List Char) : Bool :=
  match l.getLast? with
  | none => true
  | some c => !isWs c

/-! ## Lemmas about the embedded string operations -/

theorem splitOnChar_ne_nil (c : Char) (s : List Char) : splitOnChar c s ≠ [] := by
  cases s with
  | nil => simp [splitOnChar]
  | cons a t =>
    simp only [splitOnChar]
    cases h : splitOnChar c t with
    | nil => simp
    | cons l ls => by_cases hac : a = c <;> simp [hac]

theorem splitOnChar_cons_self (c : Char) (t : List Char) :
    splitOnChar c (c :: t) = [] :: splitOnChar c t := by
  simp only [splitOnChar]
  cases h : splitOnChar c t with
  | nil => exact absurd h (splitOnChar_ne_nil c t)
  | cons l ls => simp

theorem splitOnChar_cons_ne {a c : Char} (hac : ¬a = c) (t : List Char)
    {l : List Char} {ls : List (List Char)} (hs : splitOnChar c t = l :: ls) :
    splitOnChar c (a :: t) = (a :: l) :: ls := by
  simp only [splitOnChar]
  rw [hs]
  simp [hac]

theorem splitOnChar_of_not_mem {c : Char} {s : List Char} (h : c ∉ s) :
    splitOnChar c s = [s] := by
  induction s with
  | nil => rfl
  | cons a t ih =>
    have hac : ¬(a = c) := fun hh => h (hh ▸ List.mem_cons_self a t)
    have ht : c ∉ t := fun hh => h (List.mem_cons_of_mem a hh)
    exact splitOnChar_cons_ne hac t (ih ht)

theorem splitOnChar_append_cons {c : Char} {l : List Char} (t : List Char)
    (h : c ∉ l) : splitOnChar c (l ++ c :: t) = l :: splitOnChar c t := by
  induction l with
  | nil => simpa using splitOnChar_cons_self c t
  | cons a l' ih =>
    have hac : ¬(a = c) := fun hh => h (hh ▸ List.mem_cons_self a l')
    have hl' : c ∉ l' := fun hh => h (List.mem_cons_of_mem a hh)
    cases hs : splitOnChar c (l' ++ c :: t) with
    | nil => exact absurd hs (splitOnChar_ne_nil c _)
    | cons x xs =>
      have hx : x = l' ∧ xs = splitOnChar c t := by
        have := (ih hl').symm.trans hs
        exact ⟨(List.cons.injEq _ _ _ _ ▸ this).1.symm,
          (List.cons.injEq _ _ _ _ ▸ this).2.symm⟩
      rw [List.cons_append, splitOnChar_cons_ne hac _ hs, hx.1, hx.2]

theorem splitOnChar_head_takeWhile (c : Char) (v : List Char) :
    ∃ ls, splitOnChar c v = v.takeWhile (fun a => a != c) :: ls := by
  induction v with
  | nil => exact ⟨[], rfl⟩
  | cons a t ih =>
    obtain ⟨ls, hls⟩ := ih
    by_cases hac : a = c
    · refine ⟨splitOnChar c t, ?_⟩
      subst hac
      rw [splitOnChar_cons_self]
      simp [List.takeWhile_cons]
    · refine ⟨ls, ?_⟩
      rw [splitOnChar_cons_ne hac t hls]
      simp [List.takeWhile_cons, hac]

theorem not_mem_of_mem_splitOnChar {c : Char} {s : List Char} {l : List Char}
    (h : l ∈ splitOnChar c s) : c ∉ l := by
  induction s generalizing l with
  | nil =>
    simp only [splitOnChar, List.mem_singleton] at h
    subst h; simp
  | cons a t ih =>
    by_cases hac : a = c
    · subst hac
      rw [splitOnChar_cons_self] at h
      rcases List.mem_cons.mp h with h | h
      · subst h; simp
      · exact ih h
    · cases hs : splitOnChar c t with
      | nil => exact absurd hs (splitOnChar_ne_nil c t)
      | cons x xs =>
        rw [splitOnChar_cons_ne hac t hs] at h
        rcases List.mem_cons.mp h with h | h
        · subst h
          intro hm
          rcases List.mem_cons.mp hm with hm | hm
          · exact hac hm.symm
          · exact ih (hs ▸ List.mem_cons_self x xs) hm
        · exact ih (hs ▸ List.mem_cons_of_mem x h)

theorem splitOnChar_joinWith {c : Char} {ls : List (List Char)} (hne : ls ≠ [])
    (h : ∀ l ∈ ls, c ∉ l) : splitOnChar c (joinWith c ls) = ls := by
  induction ls with
  | nil => exact absurd rfl hne
  | cons l rest ih =>
    cases rest with
    | nil =>
      simp only [joinWith]
      exact splitOnChar_of_not_mem (h l (List.mem_cons_self l []))
    | cons l₂ rest' =>
      have hstep : joinWith c (l :: l₂ :: rest') = l ++ c :: joinWith c (l₂ :: rest') := rfl
      rw [hstep, splitOnChar_append_cons _ (h l (List.mem_cons_self _ _))]
      rw [ih (List.cons_ne_nil _ _) (fun x hx => h x (List.mem_cons_of_mem l hx))]

theorem trimEnd_of_endsClean {s : List Char} (h : endsClean s = true) :
    trimEnd s = s := by
  unfold endsClean at h
  cases hl : s.getLast? with
  | none =>
    rw [List.getLast?_eq_none_iff] at hl
    subst hl; rfl
  | some a =>
    rw [hl] at h
    simp only [Bool.not_eq_true'] at h
    have hrev : s.reverse.head? = some a := by
      rw [List.head?_reverse]; exact hl
    cases hr : s.reverse with
    | nil => rw [hr] at hrev; simp at hrev
    | cons b t =>
      rw [hr] at hrev
      simp only [List.head?_cons, Option.some.injEq] at hrev
      subst hrev
      unfold trimEnd
      rw [hr, List.dropWhile_cons, h]
      simp only [Bool.false_eq_true, if_false]
      rw [← hr, List.reverse_reverse]

theorem drop_length_takeWhile (p : Char → Bool) (l : List Char) :
    l.drop (l.takeWhile p).length = l.dropWhile p := by
  induction l with
  | nil => rfl
  | cons a t ih =>
    by_cases hp : p a = true
    · simp [List.takeWhile, List.dropWhile, hp, ih]
    · simp [List.takeWhile, List.dropWhile, hp]

theorem dropWhile_not_all {l : List Char} (h : l.all isWs = false) :
    ∃ c t, l.dropWhile isWs = c :: t ∧ isWs c = false := by
  induction l with
  | nil => simp at h
  | cons a t ih =>
    by_cases ha : isWs a = true
    · simp only [List.all_cons, ha, Bool.true_and] at h
      obtain ⟨c, t', hc, hw⟩ := ih h
      exact ⟨c, t', by rw [List.dropWhile_cons, ha]; simpa using hc, hw⟩
    · exact ⟨a, t, by rw [List.dropWhile_cons]; simp [ha], by simpa using ha⟩

theorem takeWhile_all {l : List Char} (h : l.all isWs = true) :
    l.takeWhile isWs = l := by
  induction l with
  | nil => rfl
  | cons a t ih =>
    simp only [List.all_cons, Bool.and_eq_true] at h
    simp [List.takeWhile, h.1, ih h.2]

theorem findFirstIdx_some {p : List Char → Bool} {ls : List (List Char)} {i : Nat}
    (h : findFirstIdx p ls = some i) :
    ∃ l rest, ls.drop i = l :: rest ∧ p l = true := by
  induction ls generalizing i with
  | nil => simp [findFirstIdx] at h
  | cons l t ih =>
    unfold findFirstIdx at h
    by_cases hp : p l = true
    · rw [if_pos hp] at h
      cases h
      exact ⟨l, t, rfl, hp⟩
    · rw [if_neg hp] at h
      cases hfi : findFirstIdx p t with
      | none => rw [hfi] at h; simp at h
      | some j =>
        rw [hfi] at h
        simp at h
        subst h
        obtain ⟨l', rest, hd, hpl⟩ := ih hfi
        exact ⟨l', rest, by simpa using hd, hpl⟩

theorem findFirstIdx_none {p : List Char → Bool} {ls : List (List Char)}
    (h : findFirstIdx p ls = none) : ∀ l ∈ ls, p l = false := by
  induction ls with
  | nil => simp
  | cons l t ih =>
    unfold findFirstIdx at h
    by_cases hp : p l = true
    · rw [if_pos hp] at h; simp at h
    · rw [if_neg hp] at h
      intro x hx
      rcases List.mem_cons.mp hx with hx | hx
      · subst hx; simpa using hp
      · exact ih (by simpa using h) x hx

theorem drop_length_sub_one {α : Type} (ls : List α) (h : ls ≠ []) :
    ∃ last, ls.drop (ls.length - 1) = [last] ∧ last ∈ ls := by
  induction ls with
  | nil => exact absurd rfl h
  | cons a t ih =>
    cases t with
    | nil => exact ⟨a, rfl, List.mem_singleton.mpr rfl⟩
    | cons b t' =>
      obtain ⟨last, hd, hm⟩ := ih (List.cons_ne_nil b t')
      refine ⟨last, ?_, List.mem_cons_of_mem a hm⟩
      have : (a :: b :: t').length - 1 = (b :: t').length := by simp
      rw [this]
      show (b :: t').drop ((b :: t').length - 1 + 1 - 1 + 1 - 1) = [last]
      simpa using hd

/-! ## Lemmas about the parser -/

theorem parseArg_dashdash (st : ParseState) (rest : List Char) :
    parseArg st ('-' :: '-' :: rest) = applyFlag st rest := by
  unfold parseArg
  rw [if_pos (by simp [List.isPrefixOf])]
  rfl

theorem parseArg_dash_single (st : ParseState) :
    parseArg st ['-'] = applyFlag st [] := by
  unfold parseArg
  rw [if_neg (by simp [List.isPrefixOf]), if_pos (by simp [List.isPrefixOf])]
  rfl

theorem parseArg_dash (st : ParseState) (c : Char) (rest : List Char) (hc : ¬c = '-') :
    parseArg st ('-' :: c :: rest) = applyFlag st (c :: rest) := by
  have hc' : ¬('-' = c) := fun hh => hc hh.symm
  unfold parseArg
  rw [if_neg (by simp [List.isPrefixOf, hc']), if_pos (by simp [List.isPrefixOf])]
  rfl

theorem applyFlag_split_nil {st : ParseState} {rest key : List Char}
    (hs : splitOnChar '=' rest = [key]) (hk : key ≠ []) :
    applyFlag st rest = { st with flags := setFlag st.flags key (.bool true) } := by
  unfold applyFlag
  rw [hs]
  simp [hk]

theorem applyFlag_split_cons {st : ParseState} {rest key v : List Char}
    {vs : List (List Char)} (hs : splitOnChar '=' rest = key :: v :: vs)
    (hk : key ≠ []) :
    applyFlag st rest = { st with flags := setFlag st.flags key (.str v) } := by
  unfold applyFlag
  rw [hs]
  simp [hk]

theorem applyFlag_empty_key {st : ParseState} {rest : List Char}
    (h : rest = [] ∨ ∃ r, rest = '=' :: r) : applyFlag st rest = st := by
  rcases h with rfl | ⟨r, rfl⟩
  · rfl
  · unfold applyFlag
    rw [splitOnChar_cons_self]
    rfl

/-- A flag value is legitimate when it is a string or the boolean true. -/
def strOrTrue (v : FlagVal) : Prop := (∃ s, v = .str s) ∨ v = .bool true

theorem mem_setFlag {m : List (List Char × FlagVal)} {k : List Char} {v : FlagVal}
    {p : List Char × FlagVal} (h : p ∈ setFlag m k v) : p = (k, v) ∨ p ∈ m := by
  induction m with
  | nil =>
    simp only [setFlag, List.mem_singleton] at h
    exact Or.inl h
  | cons a rest ih =>
    obtain ⟨k', v'⟩ := a
    unfold setFlag at h
    by_cases hk : k' = k
    · rw [if_pos hk] at h
      rcases List.mem_cons.mp h with h | h
      · exact Or.inl h
      · exact Or.inr (List.mem_cons_of_mem _ h)
    · rw [if_neg hk] at h
      rcases List.mem_cons.mp h with h | h
      · exact Or.inr (h ▸ List.mem_cons_self _ _)
      · rcases ih h with h | h
        · exact Or.inl h
        · exact Or.inr (List.mem_cons_of_mem _ h)

theorem applyFlag_values {st : ParseState} {rest : List Char}
    (h : ∀ p ∈ st.flags, strOrTrue p.2) :
    ∀ p ∈ (applyFlag st rest).flags, strOrTrue p.2 := by
  cases hs : splitOnChar '=' rest with
  | nil =>
    unfold applyFlag
    rw [hs]
    exact h
  | cons key vals =>
    by_cases hk : key = []
    · unfold applyFlag
      rw [hs]
      simp only [hk, if_pos rfl]
      exact h
    · cases vals with
      | nil =>
        rw [applyFlag_split_nil hs hk]
        intro p hp
        rcases mem_setFlag hp with rfl | hp
        · exact Or.inr rfl
        · exact h p hp
      | cons v vs =>
        rw [applyFlag_split_cons hs hk]
        intro p hp
        rcases mem_setFlag hp with rfl | hp
        · exact Or.inl ⟨v, rfl⟩
        · exact h p hp

theorem parseArg_values {st : ParseState} {a : List Char}
    (h : ∀ p ∈ st.flags, strOrTrue p.2) :
    ∀ p ∈ (parseArg st a).flags, strOrTrue p.2 := by
  unfold parseArg
  split
  · exact applyFlag_values h
  · split
    · exact applyFlag_values h
    · exact h

theorem foldl_values (argv : List (List Char)) :
    ∀ st : ParseState, (∀ p ∈ st.flags, strOrTrue p.2) →
      ∀ p ∈ (argv.foldl parseArg st).flags, strOrTrue p.2 := by
  induction argv with
  | nil => intro st h; exact h
  | cons a t ih =>
    intro st h
    rw [List.foldl_cons]
    exact ih _ (parseArg_values h)

/-! ## Lemmas about the dedent function -/

theorem dedentLines_of_some {allLines : List (List Char)} {i : Nat}
    (h : findFirstIdx (fun l => !(l.all isWs)) allLines = some i) :
    dedentLines allLines = allLines.drop i := by
  unfold dedentLines
  rw [h]

theorem dedentLines_of_none {allLines : List (List Char)}
    (h : findFirstIdx (fun l => !(l.all isWs)) allLines = none) :
    dedentLines allLines = allLines.drop (allLines.length - 1) := by
  unfold dedentLines
  rw [h]

/-- Structure of every dedent output: it is empty, or it is the newline
join of a list of newline-free lines whose first line starts with a
non-whitespace character. -/
theorem code_spec (s : List Char) :
    code s = [] ∨
      ∃ c₀ t₀ rest, code s = joinWith '\n' ((c₀ :: t₀) :: rest) ∧
        isWs c₀ = false ∧ ∀ l ∈ (c₀ :: t₀) :: rest, '\n' ∉ l := by
  cases hfi : findFirstIdx (fun l => !(l.all isWs)) (splitOnChar '\n' (trimEnd s)) with
  | none =>
    left
    obtain ⟨last, hd, hm⟩ :=
      drop_length_sub_one (splitOnChar '\n' (trimEnd s)) (splitOnChar_ne_nil _ _)
    have hblank : last.all isWs = true := by
      have := findFirstIdx_none hfi last hm
      simpa using this
    show dedentJoin (dedentLines _) = []
    rw [dedentLines_of_none hfi, hd]
    unfold dedentJoin
    simp [takeWhile_all hblank, List.drop_length, joinWith]
  | some i =>
    obtain ⟨l₀, rest, hd, hp⟩ := findFirstIdx_some hfi
    have hblank : l₀.all isWs = false := by simpa using hp
    obtain ⟨c₀, t₀, hdw, hws⟩ := dropWhile_not_all hblank
    right
    have hl₀mem : l₀ ∈ splitOnChar '\n' (trimEnd s) :=
      List.mem_of_mem_drop (hd ▸ List.mem_cons_self l₀ rest)
    refine ⟨c₀, t₀, rest.map (fun l => l.drop ((l₀.takeWhile isWs).length)), ?_, hws, ?_⟩
    · show dedentJoin (dedentLines _) = _
      rw [dedentLines_of_some hfi, hd]
      unfold dedentJoin
      simp only [List.headD_cons, List.map_cons]
      rw [drop_length_takeWhile, hdw]
    · intro l hl
      rcases List.mem_cons.mp hl with rfl | hl
      · rw [← hdw]
        intro hmem
        exact not_mem_of_mem_splitOnChar hl₀mem
          ((List.dropWhile_sublist isWs).subset hmem)
      · obtain ⟨l', hl', rfl⟩ := List.mem_map.mp hl
        have hl'mem : l' ∈ splitOnChar '\n' (trimEnd s) :=
          List.mem_of_mem_drop (hd ▸ List.mem_cons_of_mem l₀ hl')
        intro hmem
        exact not_mem_of_mem_splitOnChar hl'mem (List.drop_subset _ l' hmem)

theorem code_nil : code [] = [] := by decide

/-- Dedent fixes every newline join of newline-free lines whose first
line starts with a non-whitespace character and whose text ends cleanly. -/
theorem code_of_clean {c₀ : Char} {t₀ : List Char} {rest : List (List Char)}
    (hws : isWs c₀ = false)
    (hnl : ∀ l ∈ (c₀ :: t₀) :: rest, '\n' ∉ l)
    (hend : endsClean (joinWith '\n' ((c₀ :: t₀) :: rest)) = true) :
    code (joinWith '\n' ((c₀ :: t₀) :: rest)) = joinWith '\n' ((c₀ :: t₀) :: rest) := by
  have htrim := trimEnd_of_endsClean hend
  have hsplit : splitOnChar '\n' (joinWith '\n' ((c₀ :: t₀) :: rest)) = (c₀ :: t₀) :: rest :=
    splitOnChar_joinWith (List.cons_ne_nil _ _) hnl
  show dedentJoin (dedentLines (splitOnChar '\n' (trimEnd _))) = _
  rw [htrim, hsplit]
  have hf : findFirstIdx (fun l => !(l.all isWs)) ((c₀ :: t₀) :: rest) = some 0 := by
    unfold findFirstIdx
    rw [if_pos (by simp [hws])]
  rw [dedentLines_of_some hf, List.drop_zero]
  unfold dedentJoin
  simp [List.takeWhile_cons, hws]

end Ctsm

namespace Ctsm.Claims

/-! ## The claims -/

/-- C2, counterexample: the claim predicts that any input that begins with
`y` after trimming surrounding whitespace is accepted, but `confirm` never
trims — on the input `" y"` the trimmed lowercased line begins with `'y'`
yet `confirm` rejects it. -/
theorem c2_counterexample :
    confirm false (chars " y") = false ∧
      (toLowerStr (trim (chars " y"))).head? = some 'y' := by decide

/-- C2, amended: `confirm` returns accepted exactly when the configuration
allows an empty answer and the input line is empty, or when the lowercased
input line (with no trimming applied) begins with the character `y`. -/
theorem c2_confirm_iff (ad : Bool) (ans : List Char) :
    confirm ad ans = true ↔
      ((ad = true ∧ ans = []) ∨ (toLowerStr ans).head? = some 'y') := by
  cases ad <;> cases ans <;> simp [confirm, toLowerStr]

/-- C3, counterexample: on empty external output, `getGitUser` does not
return an empty mapping — `''.trim().split('\n')` is `['']`, so the result
carries one entry whose key is the empty string. -/
theorem c3_counterexample : getGitUser [] ≠ [] ∧ getGitUser [] = [([], [])] := by
  decide

/-- C3, amended: when the version-control tool outputs nothing,
`getGitUser` returns a mapping holding exactly one entry, the empty-string
key bound to the empty string; in particular neither a `name` nor an
`email` key is present. -/
theorem c3_empty_output_entry :
    getGitUser [] = [([], [])] ∧
      lookupEntry (getGitUser []) (chars "name") = none ∧
      lookupEntry (getGitUser []) (chars "email") = none := by decide

/-- C4, counterexample: serializing `{a: 1, b: 2}` yields text spanning
four lines (opening brace, two field lines, closing brace), not three as
the claim states. -/
theorem c4_counterexample :
    (splitOnChar '\n' (json [(chars "a", 1), (chars "b", 2)])).length ≠ 3 ∧
      (splitOnChar '\n' (json [(chars "a", 1), (chars "b", 2)])).length = 4 := by
  decide

/-- C4, amended: serializing `{a: 1, b: 2}` yields exactly the text of the
repository's test — `"a": 1` and `"b": 2` each on its own line, each
indented by one tab, comma-separated, enclosed in braces — spanning
exactly four lines: the opening brace, the two field lines, and the
closing brace. -/
theorem c4_json_four_lines :
    json [(chars "a", 1), (chars "b", 2)] = chars "\x7b\n\t\"a\": 1,\n\t\"b\": 2\n\x7d" ∧
      splitOnChar '\n' (json [(chars "a", 1), (chars "b", 2)]) =
        [chars "\x7b", chars "\t\"a\": 1,", chars "\t\"b\": 2", chars "\x7d"] := by
  decide

/-- C7: for every supported package manager the generated manifest's
`build` script is the literal `"<manager> tsup"`, except npm, whose build
script is `"npx tsup"` and differs from that pattern. -/
theorem c7_build_script :
    (∀ pm : PackageManager, pm ≠ .npm → buildScript pm = pm.name ++ chars " tsup") ∧
      buildScript .npm = chars "npx tsup" ∧
      buildScript .npm ≠ PackageManager.name .npm ++ chars " tsup" := by
  refine ⟨?_, by decide, by decide⟩
  intro pm h
  cases pm <;> revert h <;> decide

/-- C7, witness: the yarn build script evaluates to `"yarn tsup"`. -/
theorem c7_witness :
    buildScript .yarn = PackageManager.name .yarn ++ chars " tsup" ∧
      buildScript .yarn = chars "yarn tsup" :=
  ⟨c7_build_script.1 .yarn (by decide), by decide⟩

/-- C1, counterexample: for the token `--a=b=c` (key `a`, value `b=c`) the
flag mapping binds `a` to `"b"`, not to the full value `"b=c"` — the
destructuring of `split('=')` keeps only the first segment after the key. -/
theorem c1_counterexample :
    lookupFlag (parse [chars "--a=b=c"]).flags (chars "a") = some (.str (chars "b")) ∧
      lookupFlag (parse [chars "--a=b=c"]).flags (chars "a") ≠ some (.str (chars "b=c")) := by
  decide

/-- C1, amended: for a token `--key=value` with a non-empty key containing
no `=`, the flag mapping binds `key` to the portion of `value` before its
first `=` (the whole of `value` when it contains none); for `--key` with
no `=`, `key` is bound to boolean true. -/
theorem c1_value_truncated (key value : List Char) (hk : key ≠ []) (he : '=' ∉ key) :
    lookupFlag (parse [('-' :: '-' :: (key ++ '=' :: value))]).flags key
        = some (.str (value.takeWhile (fun a => a != '='))) ∧
      lookupFlag (parse [('-' :: '-' :: key)]).flags key = some (.bool true) := by
  constructor
  · obtain ⟨ls, hls⟩ := splitOnChar_head_takeWhile '=' value
    have hsplit : splitOnChar '=' (key ++ '=' :: value)
        = key :: (value.takeWhile (fun a => a != '=')) :: ls := by
      rw [splitOnChar_append_cons value he, hls]
    show lookupFlag (parseArg ⟨[], []⟩ _).flags key = _
    rw [parseArg_dashdash, applyFlag_split_cons hsplit hk]
    simp [setFlag, lookupFlag]
  · have hsplit : splitOnChar '=' key = [key] := splitOnChar_of_not_mem he
    show lookupFlag (parseArg ⟨[], []⟩ _).flags key = _
    rw [parseArg_dashdash, applyFlag_split_nil hsplit hk]
    simp [setFlag, lookupFlag]

/-- C1, witness: instantiating the amended claim at `--a=b=c` and `--a`
and evaluating: the stored value is `"b"`. -/
theorem c1_witness :
    (lookupFlag (parse [('-' :: '-' :: (chars "a" ++ '=' :: chars "b=c"))]).flags (chars "a")
        = some (.str ((chars "b=c").takeWhile (fun a => a != '='))) ∧
      lookupFlag (parse [('-' :: '-' :: chars "a")]).flags (chars "a")
        = some (.bool true)) ∧
      (chars "b=c").takeWhile (fun a => a != '=') = chars "b" :=
  ⟨c1_value_truncated (chars "a") (chars "b=c") (by decide) (by decide), by decide⟩

/-- C6: any token whose key is empty after stripping the dash prefix — a
bare `--`, a bare `-`, or `--=value` / `-=value` — leaves the parser state
untouched: no flag entry, no positional; in particular a leading `--` is
skipped rather than treated as an end-of-flags marker, so parsing the
remaining tokens is unchanged. -/
theorem c6_empty_key_discarded (rest : List Char)
    (h : rest = [] ∨ ∃ r, rest = '=' :: r) :
    (∀ st : ParseState, parseArg st ('-' :: '-' :: rest) = st ∧
        parseArg st ('-' :: rest) = st) ∧
      ∀ argv, parse (('-' :: '-' :: rest) :: argv) = parse argv := by
  have hstep : ∀ st : ParseState, parseArg st ('-' :: '-' :: rest) = st ∧
      parseArg st ('-' :: rest) = st := by
    intro st
    constructor
    · rw [parseArg_dashdash]
      exact applyFlag_empty_key h
    · rcases h with rfl | ⟨r, rfl⟩
      · rw [parseArg_dash_single]
        exact applyFlag_empty_key (Or.inl rfl)
      · rw [parseArg_dash st '=' r (by decide)]
        exact applyFlag_empty_key (Or.inr ⟨r, rfl⟩)
  refine ⟨hstep, fun argv => ?_⟩
  show List.foldl parseArg ⟨[], []⟩ (('-' :: '-' :: rest) :: argv)
      = List.foldl parseArg ⟨[], []⟩ argv
  rw [List.foldl_cons, (hstep ⟨[], []⟩).1]

/-- C6, witness: a bare `--` leaves the empty state unchanged and is
transparent in front of a following flag token. -/
theorem c6_witness :
    parseArg ⟨[], []⟩ ['-', '-'] = (⟨[], []⟩ : ParseState) ∧
      parse [['-', '-'], chars "--x=1"] = parse [chars "--x=1"] :=
  ⟨((c6_empty_key_discarded [] (Or.inl rfl)).1 ⟨[], []⟩).1,
    (c6_empty_key_discarded [] (Or.inl rfl)).2 [chars "--x=1"]⟩

/-- C9: a single-dash token with a multi-character remainder and no `=`
(not starting with a second dash) produces exactly one flag, named by the
whole remainder and set to true — it is never split into per-character
flags. -/
theorem c9_single_dash_whole_key (c : Char) (key : List Char) (hc : ¬c = '-')
    (he : '=' ∉ c :: key) :
    parse [('-' :: c :: key)] = ⟨[((c :: key), FlagVal.bool true)], []⟩ := by
  show parseArg ⟨[], []⟩ ('-' :: c :: key) = _
  rw [parseArg_dash ⟨[], []⟩ c key hc,
    applyFlag_split_nil (splitOnChar_of_not_mem he) (List.cons_ne_nil c key)]
  rfl

/-- C9, witness: `-abc` yields the single flag `abc ↦ true` and no
positionals. -/
theorem c9_witness :
    parse [('-' :: 'a' :: chars "bc")] = ⟨[(('a' :: chars "bc"), FlagVal.bool true)], []⟩ ∧
      'a' :: chars "bc" = chars "abc" :=
  ⟨c9_single_dash_whole_key 'a' (chars "bc") (by decide) (by decide), by decide⟩

/-- C5, counterexample: dedent is not idempotent — on `"  a\nb"` the
indent width 2 exceeds the second line's length, the second line becomes
empty, and the output `"a\n"` loses its trailing newline under a second
application. -/
theorem c5_counterexample :
    code (code (chars "  a\nb")) ≠ code (chars "  a\nb") ∧
      code (chars "  a\nb") = chars "a\n" ∧
      code (code (chars "  a\nb")) = chars "a" := by decide

/-- C5, amended: dedent is idempotent on every input whose dedented
output is empty or ends in a non-whitespace character; in general the
indent stripping can empty a trailing line, leaving trailing newlines
that only a second application's `trimEnd` removes. -/
theorem c5_dedent_idempotent_clean (s : List Char)
    (h : endsClean (code s) = true) : code (code s) = code s := by
  rcases code_spec s with hnil | ⟨c₀, t₀, rest, hout, hws, hnl⟩
  · rw [hnil]
    exact code_nil
  · rw [hout] at h ⊢
    exact code_of_clean hws hnl h

/-- C5, witness: on `"  a\n  b"` the output `"a\nb"` ends cleanly and a
second dedent leaves it unchanged. -/
theorem c5_witness :
    code (code (chars "  a\n  b")) = code (chars "  a\n  b") ∧
      code (chars "  a\n  b") = chars "a\nb" :=
  ⟨c5_dedent_idempotent_clean (chars "  a\n  b") (by decide), by decide⟩

/-- C8: for every token list, every value stored in the Flag Set by the
parser is a string or the boolean true; boolean false never occurs. -/
theorem c8_no_false_flag (argv : List (List Char)) (p : List Char × FlagVal)
    (hp : p ∈ (parse argv).flags) : strOrTrue p.2 ∧ p.2 ≠ FlagVal.bool false := by
  have hv := foldl_values argv ⟨[], []⟩ (by intro q hq; cases hq) p hp
  refine ⟨hv, ?_⟩
  rcases hv with ⟨s, hs⟩ | hs <;> rw [hs] <;> simp

/-- C8, witness: the entry produced for `--verbose` carries the value
boolean true, which is a legitimate value and is not boolean false. -/
theorem c8_witness :
    strOrTrue (chars "verbose", FlagVal.bool true).2 ∧
      (chars "verbose", FlagVal.bool true).2 ≠ FlagVal.bool false :=
  c8_no_false_flag [chars "--verbose"] (chars "verbose", FlagVal.bool true) (by decide)

/-- C10: when the dedent input splits into a non-blank first line and a
second line, the second line loses exactly the first line's
leading-whitespace width from its start, whether or not those characters
are whitespace — so content characters can be deleted. -/
theorem c10_fixed_width_strip (s l₁ l₂ : List Char)
    (hsplit : splitOnChar '\n' (trimEnd s) = [l₁, l₂])
    (hblank : l₁.all isWs = false) :
    code s = l₁.drop ((l₁.takeWhile isWs).length)
        ++ '\n' :: l₂.drop ((l₁.takeWhile isWs).length) := by
  show dedentJoin (dedentLines (splitOnChar '\n' (trimEnd s))) = _
  rw [hsplit]
  have hf : findFirstIdx (fun l => !(l.all isWs)) [l₁, l₂] = some 0 := by
    unfold findFirstIdx
    rw [if_pos (by simp [hblank])]
  rw [dedentLines_of_some hf, List.drop_zero]
  unfold dedentJoin
  simp [joinWith]

/-- C10, witness: on `"    ab\n  cde"` (first-line indent 4) the second
line loses its two spaces and the content characters `c`, `d`, yielding
`"ab\ne"`. -/
theorem c10_witness :
    code (chars "    ab\n  cde")
        = (chars "    ab").drop (((chars "    ab").takeWhile isWs).length)
          ++ '\n' :: (chars "  cde").drop (((chars "    ab").takeWhile isWs).length) ∧
      code (chars "    ab\n  cde") = chars "ab\ne" :=
  ⟨c10_fixed_width_strip (chars "    ab\n  cde") (chars "    ab") (chars "  cde")
    (by decide) (by decide), by decide⟩

end Ctsm.Claims
